import Mathlib

/-!
Verification development for PyIconExtractor (src/icon_extractor.py).

The Python source is shallowly embedded as executable Lean definitions:
pure string manipulation is translated function by function, and the
side-effecting parts (the external 7zip commands, shortcut resolution,
image-format sniffing, and the filesystem) are made explicit parameters
or explicit state (lists/finsets of file names).  Machine-level concerns
do not arise: all sizes are Python ints, modelled as `Int`/`Nat`.
-/

set_option maxRecDepth 10000

deriving instance DecidableEq for Except

namespace IconExtractor

/-! ## Basic string utilities (Python semantics, over `List Char`) -/

/-- ASCII lower-casing of one character.  Python `str.lower` restricted to
the ASCII range, which covers every extension the program compares. -/
def lowerChar (c : Char) : Char :=
  if 'A' ≤ c ∧ c ≤ 'Z' then Char.ofNat (c.toNat + 32) else c

/-- Python `str.lower` (ASCII case mapping). -/
def lowerStr (s : String) : String := String.mk (s.data.map lowerChar)

/-- Split a character list at every character satisfying `p`, keeping empty
pieces — the semantics of Python `str.split(sep)` for a one-character
separator class. -/
def splitPieces (p : Char → Bool) : List Char → List (List Char)
  | [] => [[]]
  | c :: rest =>
    match splitPieces p rest, p c with
    | r, true => [] :: r
    | [], false => [[c]]
    | t :: ts, false => (c :: t) :: ts

/-- Python `output.split("\n")` (used on the captured 7zip listing). -/
def splitNlLines (s : String) : List String :=
  (splitPieces (fun c => c = '\n') s.data).map String.mk

/-- Python `line.split()`: split on whitespace runs, dropping empty pieces.
`Char.isWhitespace` covers space/tab/CR/LF, the characters occurring in the
tool's tabular output. -/
def pySplit (s : String) : List String :=
  ((splitPieces (fun c => c.isWhitespace) s.data).filter (fun t => t ≠ [])).map String.mk

/-- Is `c` a path separator (either slash, as in the regex `[\/\\]`). -/
def isSlash (c : Char) : Bool := c = '/' || c = '\\'

/-- Python (Windows) `Path(inner).name`: the last nonempty slash-separated
segment of the internal archive path. -/
def innerBaseName (s : String) : String :=
  String.mk (((splitPieces isSlash s.data).filter (fun t => t ≠ [])).getLast?.getD [])

/-- Index of the last `'.'` in a character list, if any. -/
def lastDotIdx : List Char → Option Nat
  | [] => none
  | c :: rest =>
    match lastDotIdx rest with
    | some i => some (i + 1)
    | none => if c = '.' then some 0 else none

/-- Python `pathlib` suffix of a file name: `""` unless the last dot sits at
an index `i` with `0 < i < len - 1`, in which case the substring from `i`. -/
def nameSuffix (name : String) : String :=
  match lastDotIdx name.data with
  | none => ""
  | some i =>
    if 0 < i ∧ i + 1 < name.data.length then String.mk (name.data.drop i) else ""

/-- Python `pathlib` stem of a file name (the name with `nameSuffix` cut). -/
def nameStem (name : String) : String :=
  match lastDotIdx name.data with
  | none => name
  | some i =>
    if 0 < i ∧ i + 1 < name.data.length then String.mk (name.data.take i) else name

/-- Suffix of the last component of a component-list path (Python
`Path.suffix`). -/
def pathSuffix (p : List String) : String := nameSuffix (p.getLast?.getD "")

/-! ## Resource Lister (`find_icons_in_exe`) -/

/-- Does `sep ICON sep nonspace` occur at the head of the character list
(the core of the regex `.+[\/\\]ICON[\/\\]\S+`). -/
def iconPatHere : List Char → Bool
  | s :: 'I' :: 'C' :: 'O' :: 'N' :: t :: c :: _ =>
    isSlash s && isSlash t && !c.isWhitespace
  | _ => false

/-- Does `sep ICON sep nonspace` occur anywhere in the character list. -/
def iconPatSearch : List Char → Bool
  | [] => false
  | c :: rest => iconPatHere (c :: rest) || iconPatSearch rest

/-- `re.search(r".+[\/\\]ICON[\/\\]\S+", line)`: the pattern asks for at
least one character (`.+`), then `sep ICON sep`, then a nonspace character;
so a line matches exactly when `sep ICON sep nonspace` occurs at some index
that is at least 1. -/
def matchIconLine (line : String) : Bool :=
  match line.data with
  | [] => false
  | _ :: rest => iconPatSearch rest

/-- Value of a list of decimal digit characters. -/
def digitsVal (cs : List Char) : Nat :=
  cs.foldl (fun a c => a * 10 + (c.toNat - 48)) 0

/-- Python `int(s)` on a whitespace-free token: an optional sign followed by
at least one decimal digit (the shape occurring in 7zip's size column). -/
def pyInt? (s : String) : Option Int :=
  match s.data with
  | [] => none
  | '-' :: rest =>
    if rest ≠ [] ∧ rest.all Char.isDigit then some (-(digitsVal rest : Int)) else none
  | '+' :: rest =>
    if rest ≠ [] ∧ rest.all Char.isDigit then some ((digitsVal rest : Int)) else none
  | cs => if cs.all Char.isDigit then some ((digitsVal cs : Int)) else none

/-- The Python faults the embedded code can raise. -/
inductive PyFault where
  | indexError
  | valueError
  | osError
deriving DecidableEq, Repr

/-- The per-line parsing loop of `find_icons_in_exe`: for each line matching
the ICON pattern, take `fields[-1]` as the internal path and
`int(fields[-3])` as the size.  `fields[-3]` raises `IndexError` when the
matching line has fewer than three whitespace-delimited fields, and `int`
raises `ValueError` when the size field is not an integer literal. -/
def parseIconLines : List String → Except PyFault (List (String × Int))
  | [] => .ok []
  | line :: rest =>
    if matchIconLine line then
      if (pySplit line).length < 3 then .error .indexError
      else
        match pyInt? ((pySplit line).getD ((pySplit line).length - 3) "") with
        | none => .error .valueError
        | some n =>
          (parseIconLines rest).map
            (fun l => ((pySplit line).getD ((pySplit line).length - 1) "", n) :: l)
    else parseIconLines rest

/-- One step of the stable descending insertion sort: insert `x` before the
first element whose size is at most `x`'s (so an earlier element never jumps
over an equal-sized later one). -/
def insertBySizeDesc (x : String × Int) : List (String × Int) → List (String × Int)
  | [] => [x]
  | y :: ys => if y.2 ≤ x.2 then x :: y :: ys else y :: insertBySizeDesc x ys

/-- The stable sort by size, descending — the semantics of Python
`list.sort(key=lambda entry: entry[1], reverse=True)`. -/
def sortBySizeDesc : List (String × Int) → List (String × Int)
  | [] => []
  | x :: xs => insertBySizeDesc x (sortBySizeDesc xs)

/-- `find_icons_in_exe`, as a function of the external list command's exit
status and captured standard output: a non-zero status yields the empty
list; otherwise the output lines are parsed and the entries returned sorted
by size, largest first. -/
def find_icons_in_exe (returncode : Int) (stdout : String) :
    Except PyFault (List (String × Int)) :=
  if returncode ≠ 0 then .ok []
  else (parseIconLines (splitNlLines stdout)).map sortBySizeDesc

/-! ## Output-name collision resolution (`extract_icons`, lines 220-230) -/

/-- Little-endian decimal digits, with explicit fuel (`n` itself always
suffices) so the definition is structural. -/
def decDigitsAux : Nat → Nat → List Nat
  | 0, _ => []
  | _ + 1, 0 => []
  | fuel + 1, n + 1 => (n + 1) % 10 :: decDigitsAux fuel ((n + 1) / 10)

/-- Little-endian decimal digits of `n`. -/
def decDigits (n : Nat) : List Nat := decDigitsAux n n

/-- The character of one decimal digit. -/
def digitChar (d : Nat) : Char := Char.ofNat (48 + d)

/-- Value of a little-endian digit list (used to invert `decDigits`). -/
def decVal : List Nat → Nat
  | [] => 0
  | d :: ds => d + 10 * decVal ds

/-- Decimal rendering of a natural number, as the f-string `f" ({i})"`
renders `i`. -/
def natRepr (n : Nat) : String :=
  if n = 0 then "0" else String.mk (((decDigits n).map digitChar).reverse)

/-- The numbered candidate name `stem (i)suffix` probed by the collision
loop. -/
def collisionName (stem sfx : String) (i : Nat) : String :=
  stem ++ " (" ++ natRepr i ++ ")" ++ sfx

/-- The `while target_path.exists()` loop of `extract_icons`, probing
`stem (i)`, `stem (i+1)`, … The loop terminates because the numbered names
are pairwise distinct and the directory is finite; here that measure is an
explicit fuel, and `existing.length + 1` probes always suffice (see
`exists_free_probe`), so the fuel-exhausted branch is never reached from
`resolveTargetName`.  The source recomputes `target_path.suffix` each
iteration; numbering never changes the suffix of any name the program
forms, so the suffix is fixed once here. -/
def probeCollision (existing : List String) (stem sfx : String) : Nat → Nat → String
  | 0, i => collisionName stem sfx i
  | fuel + 1, i =>
    if collisionName stem sfx i ∈ existing then probeCollision existing stem sfx fuel (i + 1)
    else collisionName stem sfx i

/-- Lines 221-228 of the source: the target output name for an executable
stem and an extracted suffix, against the names already in the output
directory — the plain `stem ++ sfx` if free, else the first free
`stem (i)sfx` probing `i = 2, 3, …`. -/
def resolveTargetName (existing : List String) (exeStem iconSfx : String) : String :=
  if exeStem ++ iconSfx ∈ existing then
    probeCollision existing (nameStem (exeStem ++ iconSfx)) (nameSuffix (exeStem ++ iconSfx))
      (existing.length + 1) 2
  else exeStem ++ iconSfx

/-! ## Resource Extractor and Extraction Orchestrator -/

/-- One discovered executable together with the behaviour of the external
collaborators on it: the exit status and captured output of the 7zip list
command, whether the 7zip extract command succeeds on a given internal
path, and what `imghdr.what` reports for the file that path extracts to. -/
structure ExeJob where
  stem : String
  rc : Int
  stdout : String
  extractOk : String → Bool
  sniff : String → Option String

/-- `extract_icon_from_exe`: the staging directory is the list of file
names it currently holds.  On command failure nothing changes and `none`
is returned.  On success the entry's base name appears in staging; a file
without extension is renamed after sniffing, and when sniffing fails the
function returns `none` with the extracted file left behind in staging. -/
def extract_icon_from_exe (job : ExeJob) (inner : String) (staging : List String) :
    List String × Option String :=
  if job.extractOk inner then
    let base := innerBaseName inner
    if nameSuffix base = "" then
      match job.sniff inner with
      | some ext => (staging ++ [base ++ "." ++ ext], some (base ++ "." ++ ext))
      | none => (staging ++ [base], none)
    else (staging ++ [base], some base)
  else (staging, none)

/-- Does `extract_icon_from_exe` produce a file for this entry?  (Its
outcome does not depend on the staging contents.) -/
def entrySucceeds (job : ExeJob) (inner : String) : Bool :=
  job.extractOk inner &&
    (nameSuffix (innerBaseName inner) ≠ "" || (job.sniff inner).isSome)

/-- The name of the staged file `extract_icon_from_exe` returns on
success. -/
def extractedName (job : ExeJob) (inner : String) : String :=
  let base := innerBaseName inner
  if nameSuffix base = "" then
    match job.sniff inner with
    | some ext => base ++ "." ++ ext
    | none => base
  else base

/-- The mutable filesystem state the orchestrator and run controller
thread: the names in the output directory, the names in the staging
directory, and the count of icons extracted so far. -/
structure OrchState where
  output : List String
  staging : List String
  count : Nat
deriving DecidableEq, Repr

/-- `extract_icons`: iterate the (sorted) icon entries; skip failed
extractions; on success move the staged file to the collision-resolved
target name in the output directory and count it; stop after the first
success when `largestOnly` is set. -/
def extract_icons (job : ExeJob) (largestOnly : Bool) :
    List (String × Int) → OrchState → OrchState
  | [], st => st
  | (inner, _) :: rest, st =>
    match extract_icon_from_exe job inner st.staging with
    | (stg1, none) => extract_icons job largestOnly rest { st with staging := stg1 }
    | (stg1, some fname) =>
      if largestOnly then
        { output := resolveTargetName st.output job.stem (nameSuffix fname) :: st.output,
          staging := stg1.erase fname, count := st.count + 1 }
      else
        extract_icons job largestOnly rest
          { output := resolveTargetName st.output job.stem (nameSuffix fname) :: st.output,
            staging := stg1.erase fname, count := st.count + 1 }

/-- The per-executable loop of `run_extraction` (lines 272-287): list the
icons of each executable in turn; a parse fault propagates (aborting the
run, as an uncaught Python exception would); an executable with no icons
is skipped; otherwise the orchestrator runs on the current state. -/
def runJobs (largestOnly : Bool) : List ExeJob → OrchState → Except PyFault OrchState
  | [], st => .ok st
  | job :: rest, st =>
    match find_icons_in_exe job.rc job.stdout with
    | .error e => .error e
    | .ok icons =>
      if icons.length = 0 then runJobs largestOnly rest st
      else runJobs largestOnly rest (extract_icons job largestOnly icons st)

/-- `run_extraction` for an already-collected list of executables:
the staging directory starts fresh (empty), each executable is processed,
and finally `temp_output_dir_path.rmdir()` removes the staging directory —
`rmdir` faults (`OSError`) unless the directory is empty. -/
def run_extraction (initialOutput : List String) (jobs : List ExeJob)
    (largestOnly : Bool) : Except PyFault OrchState :=
  match runJobs largestOnly jobs { output := initialOutput, staging := [], count := 0 } with
  | .error e => .error e
  | .ok st => if st.staging = [] then .ok st else .error .osError

/-- The executable exhibiting the staging leak: its 7zip listing holds one
icon entry whose internal name `2` has no extension, the extract command
succeeds, and `imghdr.what` cannot identify the format. -/
def sniffFailJob : ExeJob :=
  { stem := "app"
    rc := 0
    stdout := ".....  12  10  .rsrc\\1033\\ICON\\2"
    extractOk := fun _ => true
    sniff := fun _ => none }

/-- The end-to-end example of spec §8: one executable holding two icon
entries of sizes 100 and 50, on which every external step succeeds. -/
def twoIconJob : ExeJob :=
  { stem := "app"
    rc := 0
    stdout := ".....  100  90  .rsrc\\1033\\ICON\\1.ico\n.....  50  40  .rsrc\\1033\\ICON\\2.png"
    extractOk := fun _ => true
    sniff := fun _ => none }

/-- An executable on which the external list command fails. -/
def listFailJob : ExeJob :=
  { stem := "bad"
    rc := 2
    stdout := ""
    extractOk := fun _ => false
    sniff := fun _ => none }

/-! ## Path Collector (`find_files_with_extensions`) -/

/-- One input path as the collector sees it: nonexistent, an existing
plain file, or a directory.  A directory is characterised by the relative
component paths of every file anywhere below it (`glob("**/*")` filtered
by `is_file` yields exactly those; `glob("*")` filtered by `is_file`
yields the ones of length 1, its immediate children). -/
inductive InputPath where
  | missing : List String → InputPath
  | plainFile : List String → InputPath
  | dir : List String → List (List String) → InputPath
deriving DecidableEq, Repr

/-- Lines 77-86 of the source: the candidate subpaths one input path
contributes, before extension filtering — nothing for a missing path, the
path itself for a file, and the directory listing (recursive or immediate)
for a directory. -/
def candidateFiles (recursive : Bool) : InputPath → List (List String)
  | .missing _ => []
  | .plainFile p => [p]
  | .dir p rel =>
    (if recursive then rel else rel.filter (fun r => r.length = 1)).map (fun r => p ++ r)

/-- Lines 89-105 of the source, for one candidate subpath: keep it if its
extension (lower-cased) is in the target set; otherwise, if shortcut
resolution is on and it is a `.lnk`, resolve it and keep the target if the
target's extension matches — the target itself is never tested for
existence. -/
def processSubpath (resolve : List String → List String) (exts : Finset String)
    (resolveShortcuts : Bool) (acc : Finset (List String)) (sub : List String) :
    Finset (List String) :=
  if lowerStr (pathSuffix sub) ∈ exts then insert sub acc
  else if resolveShortcuts && (lowerStr (pathSuffix sub) == ".lnk") then
    if lowerStr (pathSuffix (resolve sub)) ∈ exts then insert (resolve sub) acc else acc
  else acc

/-- `find_files_with_extensions`.  `resolve` is the external shortcut
resolution capability (`WScript.Shell` plus `Path.resolve`).  Both flags
default to `true` as in the source. -/
def find_files_with_extensions (resolve : List String → List String)
    (paths : List InputPath) (exts : Finset String)
    (recursiveSearch : Bool := true) (resolveShortcuts : Bool := true) :
    Finset (List String) :=
  paths.foldl
    (fun acc ip =>
      (candidateFiles recursiveSearch ip).foldl (processSubpath resolve exts resolveShortcuts) acc)
    ∅

set_option linter.unusedVariables false in
/-- The executable collection a CLI run actually performs: `__main__`
parses `-r` into `recursive_search`, but `run_extraction` (line 258) calls
`find_files_with_extensions(input_paths, {".exe"})` with only two
arguments, so the flag is never consulted and both optional parameters
keep their defaults (recursive and shortcut resolution both on). -/
def cliCandidates (resolve : List String → List String) (inputs : List InputPath)
    (recursiveFlag : Bool) : Finset (List String) :=
  find_files_with_extensions resolve inputs {".exe"}

/-- A directory input `d` holding a top-level `top.exe` and a nested
`sub/app.exe`. -/
def demoTree : List InputPath := [.dir ["d"] [["top.exe"], ["sub", "app.exe"]]]

/-! ## Lemmas about the stable descending sort -/

lemma mem_insertBySizeDesc {x z : String × Int} {l : List (String × Int)} :
    z ∈ insertBySizeDesc x l ↔ z = x ∨ z ∈ l := by
  induction l with
  | nil => simp [insertBySizeDesc]
  | cons y ys ih =>
    rw [insertBySizeDesc]
    by_cases hc : y.2 ≤ x.2
    · simp [if_pos hc]
    · simp only [if_neg hc, List.mem_cons, ih]
      tauto

lemma sorted_insertBySizeDesc {x : String × Int} {l : List (String × Int)}
    (h : List.Sorted (fun a b => b.2 ≤ a.2) l) :
    List.Sorted (fun a b => b.2 ≤ a.2) (insertBySizeDesc x l) := by
  induction l with
  | nil => simp [insertBySizeDesc]
  | cons y ys ih =>
    rw [List.sorted_cons] at h
    obtain ⟨hy, hys⟩ := h
    rw [insertBySizeDesc]
    by_cases hc : y.2 ≤ x.2
    · rw [if_pos hc]
      refine List.sorted_cons.mpr ⟨?_, List.sorted_cons.mpr ⟨hy, hys⟩⟩
      intro b hb
      rcases List.mem_cons.mp hb with rfl | hb
      · exact hc
      · exact le_trans (hy b hb) hc
    · rw [if_neg hc]
      refine List.sorted_cons.mpr ⟨?_, ih hys⟩
      intro b hb
      rcases mem_insertBySizeDesc.mp hb with rfl | hb
      · exact le_of_not_le hc
      · exact hy b hb

lemma sorted_sortBySizeDesc (l : List (String × Int)) :
    List.Sorted (fun a b => b.2 ≤ a.2) (sortBySizeDesc l) := by
  induction l with
  | nil => simp [sortBySizeDesc]
  | cons x xs ih => exact sorted_insertBySizeDesc ih

lemma filter_insertBySizeDesc (s : Int) (x : String × Int) (l : List (String × Int)) :
    (insertBySizeDesc x l).filter (fun e => e.2 = s) =
      if x.2 = s then x :: l.filter (fun e => e.2 = s)
      else l.filter (fun e => e.2 = s) := by
  induction l with
  | nil =>
    rw [insertBySizeDesc]
    by_cases hx : x.2 = s <;> simp [hx]
  | cons y ys ih =>
    rw [insertBySizeDesc]
    by_cases hc : y.2 ≤ x.2
    · rw [if_pos hc]
      by_cases hx : x.2 = s <;> simp [List.filter_cons, hx]
    · rw [if_neg hc]
      by_cases hx : x.2 = s <;> by_cases hy : y.2 = s <;>
        simp_all [List.filter_cons, ih]

lemma filter_sortBySizeDesc (s : Int) (l : List (String × Int)) :
    (sortBySizeDesc l).filter (fun e => e.2 = s) = l.filter (fun e => e.2 = s) := by
  induction l with
  | nil => rfl
  | cons x xs ih =>
    rw [sortBySizeDesc, filter_insertBySizeDesc, List.filter_cons, ih]
    by_cases hx : x.2 = s <;> simp [hx]

/-! ## Lemmas about decimal rendering and collision names -/

lemma decVal_decDigitsAux : ∀ fuel n, n ≤ fuel → decVal (decDigitsAux fuel n) = n := by
  intro fuel
  induction fuel with
  | zero =>
    intro n h
    interval_cases n
    rfl
  | succ f ih =>
    intro n h
    match n with
    | 0 => rfl
    | m + 1 =>
      rw [decDigitsAux, decVal, ih ((m + 1) / 10) (by omega)]
      omega

lemma decVal_decDigits (n : Nat) : decVal (decDigits n) = n :=
  decVal_decDigitsAux n n le_rfl

lemma decDigitsAux_lt_ten : ∀ fuel n d, d ∈ decDigitsAux fuel n → d < 10 := by
  intro fuel
  induction fuel with
  | zero => intro n d h; simp [decDigitsAux] at h
  | succ f ih =>
    intro n d h
    match n with
    | 0 => simp [decDigitsAux] at h
    | m + 1 =>
      rw [decDigitsAux] at h
      rcases List.mem_cons.mp h with rfl | h
      · omega
      · exact ih _ d h

lemma undigit_digitChar : ∀ d, d < 10 → (digitChar d).toNat - 48 = d := by
  intro d h
  interval_cases d <;> decide

lemma map_undigit_digitChar (l : List Nat) (h : ∀ d ∈ l, d < 10) :
    (l.map digitChar).map (fun c => c.toNat - 48) = l := by
  induction l with
  | nil => rfl
  | cons d ds ih =>
    simp only [List.map_cons, List.cons.injEq]
    exact ⟨undigit_digitChar d (h d (by simp)), ih fun x hx => h x (by simp [hx])⟩

lemma natRepr_inj {a b : Nat} (h : natRepr a = natRepr b) : a = b := by
  have digitsEq : ∀ x y : List Nat, (∀ d ∈ x, d < 10) → (∀ d ∈ y, d < 10) →
      x.map digitChar = y.map digitChar → x = y := by
    intro x y hx hy hmap
    have := congrArg (List.map (fun c => c.toNat - 48)) hmap
    rwa [map_undigit_digitChar x hx, map_undigit_digitChar y hy] at this
  by_cases ha : a = 0 <;> by_cases hb : b = 0
  · omega
  · exfalso
    rw [natRepr, if_pos ha, natRepr, if_neg hb] at h
    have hdata := congrArg String.data h
    simp only [String.data] at hdata
    have hrev : ((decDigits b).map digitChar).reverse = ['0'] := hdata.symm
    have hmap : (decDigits b).map digitChar = ['0'] := by
      have := congrArg List.reverse hrev
      simpa using this
    have hdd : decDigits b = [0] := by
      apply digitsEq _ [0] (fun d hd => decDigitsAux_lt_ten b b d hd) (by simp)
      simpa using hmap
    have hval := decVal_decDigits b
    rw [hdd] at hval
    simp [decVal] at hval
    exact hb hval.symm
  · exfalso
    rw [natRepr, if_neg ha, natRepr, if_pos hb] at h
    have hdata := congrArg String.data h
    simp only [String.data] at hdata
    have hrev : ((decDigits a).map digitChar).reverse = ['0'] := hdata
    have hmap : (decDigits a).map digitChar = ['0'] := by
      have := congrArg List.reverse hrev
      simpa using this
    have hdd : decDigits a = [0] := by
      apply digitsEq _ [0] (fun d hd => decDigitsAux_lt_ten a a d hd) (by simp)
      simpa using hmap
    have hval := decVal_decDigits a
    rw [hdd] at hval
    simp [decVal] at hval
    exact ha hval.symm
  · rw [natRepr, if_neg ha, natRepr, if_neg hb] at h
    have hdata := congrArg String.data h
    simp only [String.data] at hdata
    have hrev := congrArg List.reverse hdata
    simp only [List.reverse_reverse] at hrev
    have hdd : decDigits a = decDigits b :=
      digitsEq _ _ (fun d hd => decDigitsAux_lt_ten a a d hd)
        (fun d hd => decDigitsAux_lt_ten b b d hd) hrev
    have := congrArg decVal hdd
    rwa [decVal_decDigits, decVal_decDigits] at this

lemma string_data_append (s t : String) : (s ++ t).data = s.data ++ t.data := rfl

lemma collisionName_inj (stem sfx : String) {i j : Nat}
    (h : collisionName stem sfx i = collisionName stem sfx j) : i = j := by
  have hdata := congrArg String.data h
  rw [collisionName, collisionName] at hdata
  simp only [string_data_append, List.append_assoc] at hdata
  have h1 := List.append_cancel_left hdata
  have h2 := List.append_cancel_left h1
  have h3 := List.append_cancel_right h2
  have hstr : natRepr i = natRepr j := by
    cases hni : natRepr i with
    | mk di =>
      cases hnj : natRepr j with
      | mk dj =>
        rw [hni, hnj] at h3
        exact congrArg String.mk h3
  exact natRepr_inj hstr

lemma exists_free_probe (existing : List String) (stem sfx : String) (i : Nat) :
    ∃ k, k ≤ existing.length ∧ collisionName stem sfx (i + k) ∉ existing := by
  by_contra hcon
  push_neg at hcon
  have hsub : (Finset.range (existing.length + 1)).image
      (fun k => collisionName stem sfx (i + k)) ⊆ existing.toFinset := by
    intro x hx
    simp only [Finset.mem_image, Finset.mem_range] at hx
    obtain ⟨k, hk, rfl⟩ := hx
    exact List.mem_toFinset.mpr (hcon k (by omega))
  have hcard := Finset.card_le_card hsub
  rw [Finset.card_image_of_injOn (by
    intro a _ b _ hab
    have := collisionName_inj stem sfx hab
    omega)] at hcard
  rw [Finset.card_range] at hcard
  have := existing.toFinset_card_le
  omega

lemma probeCollision_spec (existing : List String) (stem sfx : String) :
    ∀ fuel i, (∃ k, k < fuel ∧ collisionName stem sfx (i + k) ∉ existing) →
      ∃ j, i ≤ j ∧ probeCollision existing stem sfx fuel i = collisionName stem sfx j ∧
        collisionName stem sfx j ∉ existing ∧
        ∀ m, i ≤ m → m < j → collisionName stem sfx m ∈ existing := by
  intro fuel
  induction fuel with
  | zero =>
    intro i h
    obtain ⟨k, hk, _⟩ := h
    omega
  | succ f ih =>
    intro i h
    rw [probeCollision]
    by_cases hmem : collisionName stem sfx i ∈ existing
    · rw [if_pos hmem]
      obtain ⟨k, hk, hfree⟩ := h
      have hk0 : k ≠ 0 := by
        rintro rfl
        simp at hfree
        exact hfree hmem
      obtain ⟨k', rfl⟩ : ∃ k', k = k' + 1 := ⟨k - 1, by omega⟩
      have harg : i + 1 + k' = i + (k' + 1) := by omega
      have hfree1 : collisionName stem sfx (i + 1 + k') ∉ existing := by
        rw [harg]
        exact hfree
      obtain ⟨j, hij, heq, hfr, hall⟩ := ih (i + 1) ⟨k', by omega, hfree1⟩
      refine ⟨j, by omega, heq, hfr, ?_⟩
      intro m him hmj
      rcases Nat.eq_or_lt_of_le him with rfl | hlt
      · exact hmem
      · exact hall m (by omega) hmj
    · rw [if_neg hmem]
      exact ⟨i, le_rfl, rfl, hmem, fun m him hmi => absurd (lt_of_le_of_lt him hmi) (lt_irrefl i)⟩

lemma resolveTargetName_not_mem (existing : List String) (stem sfx : String) :
    resolveTargetName existing stem sfx ∉ existing := by
  rw [resolveTargetName]
  by_cases hmem : stem ++ sfx ∈ existing
  · rw [if_pos hmem]
    obtain ⟨k, hk, hfree⟩ :=
      exists_free_probe existing (nameStem (stem ++ sfx)) (nameSuffix (stem ++ sfx)) 2
    obtain ⟨j, _, heq, hfr, _⟩ :=
      probeCollision_spec existing (nameStem (stem ++ sfx)) (nameSuffix (stem ++ sfx))
        (existing.length + 1) 2 ⟨k, by omega, hfree⟩
    rw [heq]
    exact hfr
  · rw [if_neg hmem]
    exact hmem

lemma resolveTargetName_of_mem (existing : List String) (stem sfx : String)
    (hmem : stem ++ sfx ∈ existing) :
    ∃ j, 2 ≤ j ∧
      resolveTargetName existing stem sfx =
        collisionName (nameStem (stem ++ sfx)) (nameSuffix (stem ++ sfx)) j ∧
      collisionName (nameStem (stem ++ sfx)) (nameSuffix (stem ++ sfx)) j ∉ existing ∧
      ∀ m, 2 ≤ m → m < j →
        collisionName (nameStem (stem ++ sfx)) (nameSuffix (stem ++ sfx)) m ∈ existing := by
  obtain ⟨k, hk, hfree⟩ :=
    exists_free_probe existing (nameStem (stem ++ sfx)) (nameSuffix (stem ++ sfx)) 2
  obtain ⟨j, hij, heq, hfr, hall⟩ :=
    probeCollision_spec existing (nameStem (stem ++ sfx)) (nameSuffix (stem ++ sfx))
      (existing.length + 1) 2 ⟨k, by omega, hfree⟩
  refine ⟨j, hij, ?_, hfr, hall⟩
  rw [resolveTargetName, if_pos hmem]
  exact heq

/-! ## Lemmas about the Resource Extractor and the orchestrator -/

lemma extract_icons_nil (job : ExeJob) (lo : Bool) (st : OrchState) :
    extract_icons job lo [] st = st := rfl

lemma extract_icons_cons_none {job : ExeJob} {inner : String} {st : OrchState}
    {stg1 : List String} (lo : Bool) (sz : Int) (rest : List (String × Int))
    (h : extract_icon_from_exe job inner st.staging = (stg1, none)) :
    extract_icons job lo ((inner, sz) :: rest) st =
      extract_icons job lo rest { st with staging := stg1 } := by
  rw [extract_icons, h]

lemma extract_icons_cons_some {job : ExeJob} {inner : String} {st : OrchState}
    {stg1 : List String} {fname : String} (lo : Bool) (sz : Int)
    (rest : List (String × Int))
    (h : extract_icon_from_exe job inner st.staging = (stg1, some fname)) :
    extract_icons job lo ((inner, sz) :: rest) st =
      if lo then
        { output := resolveTargetName st.output job.stem (nameSuffix fname) :: st.output,
          staging := stg1.erase fname, count := st.count + 1 }
      else
        extract_icons job lo rest
          { output := resolveTargetName st.output job.stem (nameSuffix fname) :: st.output,
            staging := stg1.erase fname, count := st.count + 1 } := by
  rw [extract_icons, h]

lemma extract_icon_snd (job : ExeJob) (inner : String) (stg : List String) :
    (extract_icon_from_exe job inner stg).2 =
      if entrySucceeds job inner then some (extractedName job inner) else none := by
  rw [extract_icon_from_exe, entrySucceeds, extractedName]
  by_cases h1 : job.extractOk inner <;>
    by_cases h2 : nameSuffix (innerBaseName inner) = "" <;>
      cases h3 : job.sniff inner <;>
        simp [h1, h2, h3]

lemma entrySucceeds_of_none {job : ExeJob} {inner : String} {stg stg1 : List String}
    (h : extract_icon_from_exe job inner stg = (stg1, none)) :
    entrySucceeds job inner = false := by
  have hs := extract_icon_snd job inner stg
  rw [h] at hs
  by_cases hb : entrySucceeds job inner
  · rw [if_pos hb] at hs
    simp at hs
  · simpa using hb

lemma extractedName_of_some {job : ExeJob} {inner : String} {stg stg1 : List String}
    {fname : String} (h : extract_icon_from_exe job inner stg = (stg1, some fname)) :
    entrySucceeds job inner = true ∧ fname = extractedName job inner := by
  have hs := extract_icon_snd job inner stg
  rw [h] at hs
  by_cases hb : entrySucceeds job inner
  · rw [if_pos hb] at hs
    simp at hs
    exact ⟨hb, hs⟩
  · rw [if_neg hb] at hs
    simp at hs

lemma extract_icons_output_growth (job : ExeJob) (lo : Bool) :
    ∀ (entries : List (String × Int)) (st : OrchState), ∃ new,
      (extract_icons job lo entries st).output = new ++ st.output ∧ new.Nodup ∧
        ∀ t ∈ new, t ∉ st.output := by
  intro entries
  induction entries with
  | nil =>
    intro st
    exact ⟨[], by simp [extract_icons_nil]⟩
  | cons e rest ih =>
    intro st
    obtain ⟨inner, sz⟩ := e
    rcases hpr : extract_icon_from_exe job inner st.staging with ⟨stg1, res⟩
    cases res with
    | none =>
      rw [extract_icons_cons_none lo sz rest hpr]
      exact ih { st with staging := stg1 }
    | some fname =>
      rw [extract_icons_cons_some lo sz rest hpr]
      by_cases hlo : lo
      · rw [if_pos hlo]
        refine ⟨[resolveTargetName st.output job.stem (nameSuffix fname)], by simp, by simp, ?_⟩
        intro t ht
        rw [List.mem_singleton] at ht
        subst ht
        exact resolveTargetName_not_mem _ _ _
      · rw [if_neg hlo]
        obtain ⟨new1, h1, h2, h3⟩ := ih
          { output := resolveTargetName st.output job.stem (nameSuffix fname) :: st.output,
            staging := stg1.erase fname, count := st.count + 1 }
        refine ⟨new1 ++ [resolveTargetName st.output job.stem (nameSuffix fname)], ?_, ?_, ?_⟩
        · rw [h1]
          simp
        · rw [List.nodup_append]
          refine ⟨h2, List.nodup_singleton _, ?_⟩
          intro t ht1 ht2
          rw [List.mem_singleton] at ht2
          subst ht2
          exact (h3 _ ht1) (List.mem_cons_self _ _)
        · intro t ht
          rcases List.mem_append.mp ht with ht1 | ht1
          · intro hout
            exact (h3 t ht1) (List.mem_cons_of_mem _ hout)
          · rw [List.mem_singleton] at ht1
            subst ht1
            exact resolveTargetName_not_mem _ _ _

lemma extract_icons_count_true (job : ExeJob) :
    ∀ (entries : List (String × Int)) (st : OrchState),
      (extract_icons job true entries st).count ≤ st.count + 1 := by
  intro entries
  induction entries with
  | nil =>
    intro st
    rw [extract_icons_nil]
    omega
  | cons e rest ih =>
    intro st
    obtain ⟨inner, sz⟩ := e
    rcases hpr : extract_icon_from_exe job inner st.staging with ⟨stg1, res⟩
    cases res with
    | none =>
      rw [extract_icons_cons_none true sz rest hpr]
      exact ih { st with staging := stg1 }
    | some fname =>
      rw [extract_icons_cons_some true sz rest hpr, if_pos rfl]

lemma extract_icons_count_false (job : ExeJob) :
    ∀ (entries : List (String × Int)) (st : OrchState),
      (extract_icons job false entries st).count =
        st.count + entries.countP (fun e => entrySucceeds job e.1) := by
  intro entries
  induction entries with
  | nil =>
    intro st
    rw [extract_icons_nil]
    simp
  | cons e rest ih =>
    intro st
    obtain ⟨inner, sz⟩ := e
    rcases hpr : extract_icon_from_exe job inner st.staging with ⟨stg1, res⟩
    cases res with
    | none =>
      rw [extract_icons_cons_none false sz rest hpr, ih { st with staging := stg1 },
        List.countP_cons]
      have hfail := entrySucceeds_of_none hpr
      simp [hfail]
    | some fname =>
      rw [extract_icons_cons_some false sz rest hpr, if_neg (by simp), ih, List.countP_cons]
      have hsucc := (extractedName_of_some hpr).1
      simp [hsucc]
      omega

lemma extract_icons_true_first_success (job : ExeJob) :
    ∀ (pre : List (String × Int)) (e : String × Int) (rest : List (String × Int))
      (st : OrchState),
      (∀ x ∈ pre, entrySucceeds job x.1 = false) → entrySucceeds job e.1 = true →
      (extract_icons job true (pre ++ e :: rest) st).output =
        resolveTargetName st.output job.stem (nameSuffix (extractedName job e.1)) ::
          st.output ∧
      (extract_icons job true (pre ++ e :: rest) st).count = st.count + 1 := by
  intro pre
  induction pre with
  | nil =>
    intro e rest st hpre hsucc
    obtain ⟨inner, sz⟩ := e
    rcases hpr : extract_icon_from_exe job inner st.staging with ⟨stg1, res⟩
    cases res with
    | none =>
      have := entrySucceeds_of_none hpr
      simp only at hsucc
      rw [this] at hsucc
      exact absurd hsucc (by simp)
    | some fname =>
      obtain ⟨-, hname⟩ := extractedName_of_some hpr
      subst hname
      rw [List.nil_append, extract_icons_cons_some true sz rest hpr, if_pos rfl]
      exact ⟨rfl, rfl⟩
  | cons p pre ih =>
    intro e rest st hpre hsucc
    obtain ⟨inner, sz⟩ := p
    rcases hpr : extract_icon_from_exe job inner st.staging with ⟨stg1, res⟩
    cases res with
    | some fname =>
      have hfalse := hpre (inner, sz) (List.mem_cons_self _ _)
      have htrue := (extractedName_of_some hpr).1
      simp only at hfalse
      rw [hfalse] at htrue
      exact absurd htrue (by simp)
    | none =>
      rw [List.cons_append, extract_icons_cons_none true sz (pre ++ e :: rest) hpr]
      exact ih e rest { st with staging := stg1 }
        (fun x hx => hpre x (List.mem_cons_of_mem _ hx)) hsucc

/-! ## Lemmas about the run controller -/

lemma runJobs_nil (lo : Bool) (st : OrchState) : runJobs lo [] st = .ok st := rfl

lemma runJobs_cons_err {job : ExeJob} {e : PyFault} (lo : Bool) (rest : List ExeJob)
    (st : OrchState) (h : find_icons_in_exe job.rc job.stdout = .error e) :
    runJobs lo (job :: rest) st = .error e := by
  rw [runJobs, h]

lemma runJobs_cons_ok {job : ExeJob} {icons : List (String × Int)} (lo : Bool)
    (rest : List ExeJob) (st : OrchState)
    (h : find_icons_in_exe job.rc job.stdout = .ok icons) :
    runJobs lo (job :: rest) st =
      if icons.length = 0 then runJobs lo rest st
      else runJobs lo rest (extract_icons job lo icons st) := by
  rw [runJobs, h]

lemma runJobs_output_growth (lo : Bool) :
    ∀ (jobs : List ExeJob) (st st1 : OrchState), runJobs lo jobs st = .ok st1 →
      ∃ new, st1.output = new ++ st.output ∧ new.Nodup ∧ ∀ t ∈ new, t ∉ st.output := by
  intro jobs
  induction jobs with
  | nil =>
    intro st st1 h
    rw [runJobs_nil] at h
    obtain rfl : st = st1 := by
      injection h with h2
    exact ⟨[], by simp⟩
  | cons job rest ih =>
    intro st st1 h
    rcases hfi : find_icons_in_exe job.rc job.stdout with e | icons
    · rw [runJobs_cons_err lo rest st hfi] at h
      exact absurd h (by simp)
    · rw [runJobs_cons_ok lo rest st hfi] at h
      by_cases hlen : icons.length = 0
      · rw [if_pos hlen] at h
        exact ih st st1 h
      · rw [if_neg hlen] at h
        obtain ⟨new1, h1, h2, h3⟩ := extract_icons_output_growth job lo icons st
        obtain ⟨new2, g1, g2, g3⟩ := ih (extract_icons job lo icons st) st1 h
        refine ⟨new2 ++ new1, ?_, ?_, ?_⟩
        · rw [g1, h1, List.append_assoc]
        · rw [List.nodup_append]
          refine ⟨g2, h2, ?_⟩
          intro t ht1 ht2
          have := g3 t ht1
          rw [h1] at this
          exact this (List.mem_append.mpr (Or.inl ht2))
        · intro t ht
          rcases List.mem_append.mp ht with ht1 | ht1
          · intro hout
            have := g3 t ht1
            rw [h1] at this
            exact this (List.mem_append.mpr (Or.inr hout))
          · exact h3 t ht1

/-! ## Lemmas about the Resource Lister -/

lemma parseIconLines_total (lines : List String)
    (h : ∀ line ∈ lines, matchIconLine line = true →
      3 ≤ (pySplit line).length ∧
        (pyInt? ((pySplit line).getD ((pySplit line).length - 3) "")).isSome = true) :
    ∃ l, parseIconLines lines = .ok l := by
  induction lines with
  | nil => exact ⟨[], rfl⟩
  | cons line rest ih =>
    rw [parseIconLines]
    by_cases hm : matchIconLine line
    · rw [if_pos hm]
      obtain ⟨h3, hint⟩ := h line (List.mem_cons_self _ _) hm
      rw [if_neg (by omega)]
      obtain ⟨n, hn⟩ := Option.isSome_iff_exists.mp hint
      rw [hn]
      obtain ⟨l, hl⟩ := ih fun l2 hl2 => h l2 (List.mem_cons_of_mem _ hl2)
      rw [hl]
      exact ⟨_, rfl⟩
    · rw [if_neg hm]
      exact ih fun l2 hl2 => h l2 (List.mem_cons_of_mem _ hl2)

lemma find_icons_in_exe_sorted {rc : Int} {stdout : String} {l : List (String × Int)}
    (h : find_icons_in_exe rc stdout = .ok l) :
    List.Sorted (fun a b => b.2 ≤ a.2) l := by
  rw [find_icons_in_exe] at h
  by_cases hrc : rc ≠ 0
  · rw [if_pos hrc] at h
    obtain rfl : ([] : List (String × Int)) = l := by injection h
    simp
  · rw [if_neg hrc] at h
    rcases hp : parseIconLines (splitNlLines stdout) with e | l0
    · rw [hp] at h
      simp [Except.map] at h
    · rw [hp] at h
      obtain rfl : sortBySizeDesc l0 = l := by
        simp [Except.map] at h
        exact h
      exact sorted_sortBySizeDesc l0

/-! ## Lemmas about the Path Collector -/

lemma subset_processSubpath (resolve : List String → List String) (exts : Finset String)
    (rs : Bool) (acc : Finset (List String)) (sub : List String) :
    acc ⊆ processSubpath resolve exts rs acc sub := by
  rw [processSubpath]
  split_ifs <;> first
    | exact Finset.subset_insert _ _
    | exact subset_rfl

lemma subset_foldl_process (resolve : List String → List String) (exts : Finset String)
    (rs : Bool) :
    ∀ (l : List (List String)) (acc : Finset (List String)),
      acc ⊆ l.foldl (processSubpath resolve exts rs) acc := by
  intro l
  induction l with
  | nil => intro acc; exact subset_rfl
  | cons x xs ih =>
    intro acc
    rw [List.foldl_cons]
    exact (subset_processSubpath resolve exts rs acc x).trans (ih _)

lemma subset_foldl_inputs (resolve : List String → List String) (exts : Finset String)
    (rec rs : Bool) :
    ∀ (inputs : List InputPath) (acc : Finset (List String)),
      acc ⊆ inputs.foldl
        (fun acc2 ip => (candidateFiles rec ip).foldl (processSubpath resolve exts rs) acc2)
        acc := by
  intro inputs
  induction inputs with
  | nil => intro acc; exact subset_rfl
  | cons ip rest ih =>
    intro acc
    rw [List.foldl_cons]
    exact (subset_foldl_process resolve exts rs _ acc).trans (ih _)

lemma mem_processSubpath_lnk {resolve : List String → List String} {exts : Finset String}
    {sub : List String} (acc : Finset (List String))
    (hlnk : lowerStr (pathSuffix sub) = ".lnk") (hnot : ".lnk" ∉ exts)
    (htgt : lowerStr (pathSuffix (resolve sub)) ∈ exts) :
    resolve sub ∈ processSubpath resolve exts true acc sub := by
  rw [processSubpath]
  rw [if_neg (by rw [hlnk]; exact hnot)]
  rw [if_pos (by simp [hlnk])]
  rw [if_pos htgt]
  exact Finset.mem_insert_self _ _

/-! ## Claim theorems -/

/-- C1: the claim says the candidate-executable set of a CLI run depends on
the recursive flag `-r` (nested subdirectories excluded without it).  The
code does not: `run_extraction` never passes the parsed flag to
`find_files_with_extensions`, so a CLI run always scans recursively.  On a
directory with a nested `sub/app.exe`, the run without `-r` still collects
the nested executable, although the collector called as documented (flag
off) excludes it while keeping the top-level `top.exe`. -/
theorem C1_cli_ignores_recursive_flag :
    cliCandidates id demoTree false = cliCandidates id demoTree true ∧
    ["d", "sub", "app.exe"] ∈ cliCandidates id demoTree false ∧
    ["d", "sub", "app.exe"] ∉ find_files_with_extensions id demoTree {".exe"} false true ∧
    ["d", "top.exe"] ∈ find_files_with_extensions id demoTree {".exe"} false true := by
  decide

/-- C2: the claim says the staging directory is empty after every
executable is processed and is removed (empty) at the end of every run,
including runs where sniffing an extension-less extracted file fails.  The
code violates this: on `sniffFailJob` (one extension-less icon entry whose
format sniff fails) the extracted file `2` is left in staging, and the
final `rmdir` faults instead of removing the directory. -/
theorem C2_staging_not_emptied :
    runJobs false [sniffFailJob] { output := [], staging := [], count := 0 } =
      .ok { output := [], staging := ["2"], count := 0 } ∧
    run_extraction [] [sniffFailJob] false = .error .osError := by
  decide

/-- C3: Resource Lister parsing — the spec's example line yields exactly
`(".rsrc\1033\ICON\1.ico", 270398)`; every line matching the ICON pattern
contributes `(last field, int of the field three before last)`; and every
non-matching line contributes no entry. -/
theorem C3_listing_parse :
    find_icons_in_exe 0 ".....  270398  270376  .rsrc\\1033\\ICON\\1.ico" =
      .ok [(".rsrc\\1033\\ICON\\1.ico", 270398)] ∧
    (∀ (line : String) (rest : List String) (n : Int),
      matchIconLine line = true → 3 ≤ (pySplit line).length →
      pyInt? ((pySplit line).getD ((pySplit line).length - 3) "") = some n →
      parseIconLines (line :: rest) =
        (parseIconLines rest).map
          (fun l => ((pySplit line).getD ((pySplit line).length - 1) "", n) :: l)) ∧
    (∀ (line : String) (rest : List String), matchIconLine line = false →
      parseIconLines (line :: rest) = parseIconLines rest) := by
  refine ⟨by decide, ?_, ?_⟩
  · intro line rest n hm h3 hint
    rw [parseIconLines, if_pos hm, if_neg (by omega), hint]
  · intro line rest hm
    rw [parseIconLines, if_neg (by simp [hm])]

/-- C3 witness: the general conjuncts applied at a concrete line. -/
theorem C3_witness :
    parseIconLines ["no icons here", "x"] = parseIconLines ["x"] :=
  C3_listing_parse.2.2 "no icons here" ["x"] (by decide)

/-- C4: every icon list the Resource Lister returns is sorted descending by
size; the sort is stable (per-size sublists are exactly those of the input,
in input order); the spec's `[10, 50, 50, 5]` example sorts to
`[50, 50, 10, 5]` with the two 50-entries keeping their relative order. -/
theorem C4_sorted_stable_desc :
    (∀ (rc : Int) (stdout : String) (l : List (String × Int)),
      find_icons_in_exe rc stdout = .ok l →
      List.Sorted (fun a b => b.2 ≤ a.2) l) ∧
    (∀ (entries : List (String × Int)) (s : Int),
      (sortBySizeDesc entries).filter (fun e => e.2 = s) =
        entries.filter (fun e => e.2 = s)) ∧
    sortBySizeDesc [("a", 10), ("b", 50), ("c", 50), ("d", 5)] =
      [("b", 50), ("c", 50), ("a", 10), ("d", 5)] :=
  ⟨fun _ _ _ h => find_icons_in_exe_sorted h,
   fun entries s => filter_sortBySizeDesc s entries,
   by decide⟩

/-- C4 witness: the sortedness conjunct applied to a concrete listing. -/
theorem C4_witness :
    List.Sorted (fun (a b : String × Int) => b.2 ≤ a.2)
      [(".rsrc\\1033\\ICON\\1.ico", 270398)] :=
  C4_sorted_stable_desc.1 0 ".....  270398  270376  .rsrc\\1033\\ICON\\1.ico"
    [(".rsrc\\1033\\ICON\\1.ico", 270398)] (by decide)

/-- C5: the target name of a successful extraction is the executable stem
plus the extracted suffix; when that name is taken, the orchestrator probes
`stem (2)`, `stem (3)`, … in increments of 1 and uses the first free name
(every earlier probe from 2 on being taken); with `app.ico` and
`app (2).ico` existing, stem `app` yields `app (3).ico`. -/
theorem C5_collision_probing :
    (∀ (existing : List String) (stem sfx : String), stem ++ sfx ∉ existing →
      resolveTargetName existing stem sfx = stem ++ sfx) ∧
    (∀ (existing : List String) (stem sfx : String), stem ++ sfx ∈ existing →
      ∃ j, 2 ≤ j ∧
        resolveTargetName existing stem sfx =
          collisionName (nameStem (stem ++ sfx)) (nameSuffix (stem ++ sfx)) j ∧
        collisionName (nameStem (stem ++ sfx)) (nameSuffix (stem ++ sfx)) j ∉ existing ∧
        ∀ m, 2 ≤ m → m < j →
          collisionName (nameStem (stem ++ sfx)) (nameSuffix (stem ++ sfx)) m ∈ existing) ∧
    resolveTargetName ["app.ico", "app (2).ico"] "app" ".ico" = "app (3).ico" := by
  refine ⟨?_, ?_, by decide⟩
  · intro existing stem sfx hmem
    rw [resolveTargetName, if_neg hmem]
  · intro existing stem sfx hmem
    exact resolveTargetName_of_mem existing stem sfx hmem

/-- C5 witness: the free-name conjunct applied at a concrete directory. -/
theorem C5_witness : resolveTargetName ["x.ico"] "app" ".ico" = "app" ++ ".ico" :=
  C5_collision_probing.1 ["x.ico"] "app" ".ico" (by decide)

/-- C6: no output file is ever overwritten — any run that completes leaves
every pre-existing output name in place and only adds names that were not
present before the run (pairwise distinct), so a second run over the same
inputs adds numbered variants instead of replacing files. -/
theorem C6_no_overwrite :
    ∀ (init : List String) (jobs : List ExeJob) (lo : Bool) (st1 : OrchState),
      run_extraction init jobs lo = .ok st1 →
      ∃ new, st1.output = new ++ init ∧ new.Nodup ∧ ∀ t ∈ new, t ∉ init := by
  intro init jobs lo st1 h
  unfold run_extraction at h
  rcases hr : runJobs lo jobs { output := init, staging := [], count := 0 } with e | st0
  · rw [hr] at h
    exact absurd h (by simp)
  · rw [hr] at h
    have h2 : (if st0.staging = [] then (Except.ok st0 : Except PyFault OrchState)
        else .error .osError) = .ok st1 := h
    by_cases hst : st0.staging = []
    · rw [if_pos hst] at h2
      obtain rfl : st0 = st1 := by injection h2
      exact runJobs_output_growth lo jobs _ st0 hr
    · rw [if_neg hst] at h2
      exact absurd h2 (by simp)

/-- C6 witness: a second run over an output directory already holding
`app.ico` adds `app (2).ico` and `app.png` without touching `app.ico`. -/
theorem C6_witness :
    ∃ new,
      (OrchState.output
          { output := ["app.png", "app (2).ico", "app.ico"], staging := [], count := 2 }) =
        new ++ ["app.ico"] ∧
      new.Nodup ∧ ∀ t ∈ new, t ∉ ["app.ico"] :=
  C6_no_overwrite ["app.ico"] [twoIconJob] false
    { output := ["app.png", "app (2).ico", "app.ico"], staging := [], count := 2 }
    (by decide)

/-- C7: largest-only mode — with the flag set the orchestrator adds at most
one icon per executable, namely the target of the first entry of the
(sorted) list that extracts successfully; with the flag unset every entry
is attempted and each success is counted; on the spec's 100/50 example the
run produces two files unset and exactly one (the size-100 `.ico`) set. -/
theorem C7_largest_only :
    (∀ (job : ExeJob) (entries : List (String × Int)) (st : OrchState),
      (extract_icons job true entries st).count ≤ st.count + 1) ∧
    (∀ (job : ExeJob) (entries : List (String × Int)) (st : OrchState),
      (extract_icons job false entries st).count =
        st.count + entries.countP (fun e => entrySucceeds job e.1)) ∧
    (∀ (job : ExeJob) (pre : List (String × Int)) (e : String × Int)
        (rest : List (String × Int)) (st : OrchState),
      (∀ x ∈ pre, entrySucceeds job x.1 = false) → entrySucceeds job e.1 = true →
      (extract_icons job true (pre ++ e :: rest) st).output =
        resolveTargetName st.output job.stem (nameSuffix (extractedName job e.1)) ::
          st.output ∧
      (extract_icons job true (pre ++ e :: rest) st).count = st.count + 1) ∧
    (run_extraction [] [twoIconJob] false).map OrchState.output =
      .ok ["app.png", "app.ico"] ∧
    (run_extraction [] [twoIconJob] true).map OrchState.output = .ok ["app.ico"] :=
  ⟨extract_icons_count_true, extract_icons_count_false,
   fun job pre e rest st hpre hsucc =>
     extract_icons_true_first_success job pre e rest st hpre hsucc,
   by decide, by decide⟩

/-- C7 witness: the first-success conjunct applied to the 100/50 example in
largest-only mode — only the size-100 entry's icon is moved. -/
theorem C7_witness :
    (extract_icons twoIconJob true
        ([] ++ (".rsrc\\1033\\ICON\\1.ico", (100 : Int)) ::
          [(".rsrc\\1033\\ICON\\2.png", (50 : Int))])
        { output := [], staging := [], count := 0 }).output =
      resolveTargetName
          (OrchState.output { output := [], staging := [], count := 0 })
          twoIconJob.stem
          (nameSuffix (extractedName twoIconJob ".rsrc\\1033\\ICON\\1.ico")) ::
        OrchState.output { output := [], staging := [], count := 0 } ∧
    (extract_icons twoIconJob true
        ([] ++ (".rsrc\\1033\\ICON\\1.ico", (100 : Int)) ::
          [(".rsrc\\1033\\ICON\\2.png", (50 : Int))])
        { output := [], staging := [], count := 0 }).count =
      OrchState.count { output := [], staging := [], count := 0 } + 1 :=
  C7_largest_only.2.2.1 twoIconJob [] (".rsrc\\1033\\ICON\\1.ico", (100 : Int))
    [(".rsrc\\1033\\ICON\\2.png", (50 : Int))] { output := [], staging := [], count := 0 }
    (by simp) (by decide)

/-- C8: a non-zero exit status of the list command makes the Resource
Lister return the empty list, and the Run Controller then treats the
executable exactly like one with no icons: the run continues with the
remaining executables unchanged. -/
theorem C8_list_failure_nonfatal :
    (∀ (rc : Int) (stdout : String), rc ≠ 0 → find_icons_in_exe rc stdout = .ok []) ∧
    (∀ (lo : Bool) (job : ExeJob) (rest : List ExeJob) (st : OrchState), job.rc ≠ 0 →
      runJobs lo (job :: rest) st = runJobs lo rest st) := by
  refine ⟨?_, ?_⟩
  · intro rc stdout hrc
    rw [find_icons_in_exe, if_pos hrc]
  · intro lo job rest st hrc
    have hok : find_icons_in_exe job.rc job.stdout = .ok [] := by
      rw [find_icons_in_exe, if_pos hrc]
    rw [runJobs_cons_ok lo rest st hok]
    simp

/-- C8 witness: a failing executable in front of a good one leaves the rest
of the run unchanged. -/
theorem C8_witness :
    runJobs false (listFailJob :: [twoIconJob]) { output := [], staging := [], count := 0 } =
      runJobs false [twoIconJob] { output := [], staging := [], count := 0 } :=
  C8_list_failure_nonfatal.2 false listFailJob [twoIconJob]
    { output := [], staging := [], count := 0 } (by decide)

/-- C9: under the precondition that every ICON-matching listing line has at
least three whitespace-delimited fields whose third-from-last parses as an
integer, the Resource Lister parse completes without a fault; a matching
line with fewer than three fields raises an index-range fault rather than
being skipped with a warning. -/
theorem C9_parse_totality :
    (∀ stdout : String,
      (∀ line ∈ splitNlLines stdout, matchIconLine line = true →
        3 ≤ (pySplit line).length ∧
          (pyInt? ((pySplit line).getD ((pySplit line).length - 3) "")).isSome = true) →
      ∃ l, find_icons_in_exe 0 stdout = .ok l) ∧
    find_icons_in_exe 0 "a\\ICON\\b" = .error .indexError := by
  refine ⟨?_, by decide⟩
  intro stdout h
  obtain ⟨l, hl⟩ := parseIconLines_total _ h
  refine ⟨sortBySizeDesc l, ?_⟩
  rw [find_icons_in_exe, if_neg (by simp), hl]
  rfl

/-- C9 witness: the totality conjunct applied to a concrete well-formed
listing. -/
theorem C9_witness :
    ∃ l, find_icons_in_exe 0 "x  12  10  a\\ICON\\i.ico" = .ok l :=
  C9_parse_totality.1 "x  12  10  a\\ICON\\i.ico" (by decide)

/-- C10: with shortcut resolution enabled, every `.lnk` candidate whose
resolved target has a target-set extension contributes the target to the
collector's result — the target is inserted without any existence check
(`resolve` is an arbitrary function here; nothing ties its output to a
file of any input). -/
theorem C10_lnk_target_no_existence_check
    (resolve : List String → List String) (inputs : List InputPath)
    (exts : Finset String) (rec : Bool) (ip : InputPath) (sub : List String)
    (hip : ip ∈ inputs) (hsub : sub ∈ candidateFiles rec ip)
    (hlnk : lowerStr (pathSuffix sub) = ".lnk") (hnot : ".lnk" ∉ exts)
    (htgt : lowerStr (pathSuffix (resolve sub)) ∈ exts) :
    resolve sub ∈ find_files_with_extensions resolve inputs exts rec true := by
  obtain ⟨l1, l2, rfl⟩ := List.append_of_mem hip
  rw [find_files_with_extensions, List.foldl_append, List.foldl_cons]
  apply subset_foldl_inputs resolve exts rec true l2
  obtain ⟨c1, c2, hc⟩ := List.append_of_mem hsub
  rw [hc, List.foldl_append, List.foldl_cons]
  apply subset_foldl_process resolve exts true c2
  exact mem_processSubpath_lnk _ hlnk hnot htgt

/-- C10 witness: a `.lnk` whose resolved target `ghost/target.exe` exists
nowhere among the inputs is still collected. -/
theorem C10_witness :
    ["ghost", "target.exe"] ∈
      find_files_with_extensions (fun _ => ["ghost", "target.exe"])
        [.dir ["d"] [["a.lnk"]]] {".exe"} false true :=
  C10_lnk_target_no_existence_check (fun _ => ["ghost", "target.exe"])
    [.dir ["d"] [["a.lnk"]]] {".exe"} false (.dir ["d"] [["a.lnk"]]) ["d", "a.lnk"]
    (by decide) (by decide) (by decide) (by decide) (by decide)

end IconExtractor
